import Mathlib

/-!
Verification of the talent-build decoder (repository `talentstree`).

The development shallowly embeds the JavaScript source of `src/app.js`
(the current, byte-based implementation) together with the two pieces of
the older variant `src/unnamed/part_000` that the claims cite
(`decodeToBits`, the bit-array `BitReader`).  JavaScript numbers that the
code manipulates with the 32-bit operators `|`, `<<`, `>>`, `&` are
modelled as natural numbers holding the unsigned 32-bit pattern, with the
shift count reduced mod 32 and results reduced mod 2^32, exactly as the
ECMAScript operators behave on the bit pattern.  `Map`s keyed by node id
are modelled as insertion-ordered association lists where a later `set`
shadows an earlier one (lookup from the reversed list).  `atob` is
modelled by the WHATWG forgiving-base64 decode that every JS host
implements: ASCII whitespace removed, up to two trailing `=` removed when
the length is a multiple of four, failure on length ≡ 1 (mod 4) or on any
remaining character outside `A-Z a-z 0-9 + /`, leftover bits of a final
2- or 3-character group discarded.
-/

namespace Talentstree

/-! ## JavaScript 32-bit integer operators -/

/-- The ECMAScript `<<` on 32-bit integers, acting on the unsigned bit
pattern: the shift count is taken mod 32 and the result mod 2^32. -/
def jsShl32 (x n : Nat) : Nat := (x <<< (n % 32)) % 2 ^ 32

/-- The ECMAScript `|` on 32-bit integers, acting on the unsigned bit
pattern. -/
def jsOr32 (x y : Nat) : Nat := (x ||| y) % 2 ^ 32

/-! ## Byte decoder: `base64ToBytes` (src/app.js lines 91-100)

`base64ToBytes` trims the input, restores `=` padding to a multiple of
four characters and calls the host's `atob`.  `atob` performs the WHATWG
forgiving-base64 decode; an invalid input throws, modelled as `none`. -/

/-- ASCII whitespace, the set the WHATWG forgiving-base64 decode removes:
TAB, LF, FF, CR, SPACE. -/
def isAsciiWhitespace (c : Char) : Bool :=
  c = '\t' || c = '\n' || c = '\x0c' || c = '\r' || c = ' '

/-- Membership in the 64-symbol base64 alphabet `A-Z a-z 0-9 + /`. -/
def isB64Char (c : Char) : Bool :=
  ('A' ≤ c && c ≤ 'Z') || ('a' ≤ c && c ≤ 'z') || ('0' ≤ c && c ≤ '9') ||
    c = '+' || c = '/'

/-- The 6-bit value of an alphabet character (0 for anything else; only
applied to alphabet characters). -/
def b64Val (c : Char) : Nat :=
  if 'A' ≤ c && c ≤ 'Z' then c.toNat - 65
  else if 'a' ≤ c && c ≤ 'z' then c.toNat - 97 + 26
  else if '0' ≤ c && c ≤ '9' then c.toNat - 48 + 52
  else if c = '+' then 62
  else if c = '/' then 63
  else 0

/-- Standard base64 group decoding: each full group of four characters
yields three bytes; a final group of two or three characters yields one
or two bytes with the leftover low bits discarded (forgiving decode).  A
lone final character cannot occur after the length check. -/
def b64Chunks : List Char → List Nat
  | a :: b :: c :: d :: rest =>
    ((b64Val a <<< 2) ||| (b64Val b >>> 4)) ::
      (((b64Val b &&& 15) <<< 4) ||| (b64Val c >>> 2)) ::
        (((b64Val c &&& 3) <<< 6) ||| b64Val d) :: b64Chunks rest
  | [a, b] => [(b64Val a <<< 2) ||| (b64Val b >>> 4)]
  | [a, b, c] =>
    [(b64Val a <<< 2) ||| (b64Val b >>> 4),
      ((b64Val b &&& 15) <<< 4) ||| (b64Val c >>> 2)]
  | _ => []

/-- Remove one or two trailing `=` characters (step 2 of the forgiving
decode). -/
def stripTrailingEq2 (l : List Char) : List Char :=
  match l.reverse with
  | '=' :: '=' :: r => r.reverse
  | '=' :: r => r.reverse
  | _ => l

/-- Steps 1 and 2 of the forgiving-base64 decode: remove ASCII
whitespace, then, when the remaining length is a multiple of four,
remove up to two trailing `=`. -/
def atobData (l : List Char) : List Char :=
  let data := l.filter (fun c => !(isAsciiWhitespace c))
  if data.length % 4 = 0 then stripTrailingEq2 data else data

/-- The WHATWG forgiving-base64 decode implemented by the host `atob`:
remove ASCII whitespace; if the length is a multiple of four remove up to
two trailing `=`; fail when the length is ≡ 1 (mod 4) or a character
outside the alphabet remains; otherwise decode the groups. -/
def atobForgiving (l : List Char) : Option (List Nat) :=
  let data := atobData l
  if data.length % 4 = 1 then none
  else if data.any (fun c => !(isB64Char c)) then none
  else some (b64Chunks data)

/-- `String.prototype.trim`: leading and trailing whitespace removed.  The
model covers the ASCII part of the ECMAScript whitespace set (the inputs
of interest contain no exotic Unicode spaces). -/
def jsTrim (l : List Char) : List Char :=
  ((l.dropWhile isAsciiWhitespace).reverse.dropWhile isAsciiWhitespace).reverse

/-- `base64ToBytes` (src/app.js): trim, restore `=` padding to a multiple
of four, `atob`, and read the bytes off the binary string.  A thrown
`InvalidCharacterError` is the `MalformedInput` failure, modelled as
`none`. -/
def base64ToBytes (b64 : String) : Option (List Nat) :=
  let clean := jsTrim b64.toList
  let padLen := (4 - clean.length % 4) % 4
  atobForgiving (clean ++ List.replicate padLen '=')

/-! ## Bit reader: `ByteBitReader` (src/app.js lines 102-150) -/

/-- The byte-based bit reader: a byte sequence, the current byte index and
the bit index within that byte (0 = least significant bit). -/
structure ByteBitReader where
  bytes : List Nat
  byteI : Nat
  bitI : Nat
deriving Repr, DecidableEq

/-- One step of `readBits`: `this.bitI++; if (this.bitI >= 8) { this.bitI
= 0; this.byteI++; }`. -/
def bumpCursor (st : ByteBitReader) : ByteBitReader :=
  if st.bitI + 1 ≥ 8 then { st with bitI := 0, byteI := st.byteI + 1 }
  else { st with bitI := st.bitI + 1 }

/-- The loop of `readBits(n)`: `b` is the loop counter, `v` the
accumulator; `this.bytes[this.byteI] ?? 0` reads 0 past the end of the
buffer. -/
def readBitsAux : Nat → Nat → Nat → ByteBitReader → Nat × ByteBitReader
  | 0, _, v, st => (v, st)
  | n + 1, b, v, st =>
    let cur := st.bytes.getD st.byteI 0
    let bit := (cur >>> st.bitI) &&& 1
    readBitsAux n (b + 1) (jsOr32 v (jsShl32 bit b)) (bumpCursor st)

/-- `ByteBitReader.readBits(n)` (src/app.js lines 109-123). -/
def ByteBitReader.readBits (st : ByteBitReader) (n : Nat) : Nat × ByteBitReader :=
  readBitsAux n 0 0 st

/-- `ByteBitReader.alignToByte()` (src/app.js lines 125-130). -/
def ByteBitReader.alignToByte (st : ByteBitReader) : ByteBitReader :=
  if st.bitI ≠ 0 then { st with bitI := 0, byteI := st.byteI + 1 } else st

/-- The loop of `readVarInt()` over the bytes at and after the (aligned)
byte cursor; returns the accumulated value and the number of bytes the
loop consumed (`this.bytes[this.byteI++] ?? 0` reads 0 past the end, and
0 has the high bit clear, so the loop always stops). -/
def readVarIntAux : List Nat → Nat → Nat → Nat × Nat
  | [], shift, out => (jsOr32 out (jsShl32 (0 &&& 0x7f) shift), 1)
  | byte :: rest, shift, out =>
    let out := jsOr32 out (jsShl32 (byte &&& 0x7f) shift)
    if byte &&& 0x80 = 0 then (out, 1)
    else
      let p := readVarIntAux rest (shift + 7) out
      (p.1, p.2 + 1)

/-- `ByteBitReader.readVarInt()` (src/app.js lines 132-145): align to the
next byte boundary, then accumulate low-7-bit groups little-endian until
a byte with the high bit clear.  The final `out >>> 0` reinterprets the
32-bit pattern as unsigned, the identity on the pattern carried here. -/
def ByteBitReader.readVarInt (st : ByteBitReader) : Nat × ByteBitReader :=
  let st := st.alignToByte
  let p := readVarIntAux (st.bytes.drop st.byteI) 0 0
  (p.1, { st with byteI := st.byteI + p.2 })

/-- `ByteBitReader.bytesLeft()`: `Math.max(0, length - byteI)`, which is
truncated subtraction on `Nat`. -/
def ByteBitReader.bytesLeft (st : ByteBitReader) : Nat :=
  st.bytes.length - st.byteI

/-! ## Legacy bit-array decoder (src/unnamed/part_000) -/

/-- The talent export alphabet of the legacy decoder. -/
def ALPHABET : String :=
  "ABCDEFGHIJKLMNOPQRSTUVWXYZabcdefghijklmnopqrstuvwxyz0123456789+/"

/-- `decodeToBits` (src/unnamed/part_000 lines 107-116): for each
character of the trimmed input, look it up in the alphabet; a character
that is not found (`indexOf` < 0) is skipped with `continue`, otherwise
its six bits are appended LSB-first.  Note that this function never
fails: unrecognized characters are silently dropped. -/
def decodeToBits (code : String) : List Nat :=
  (jsTrim code.toList).foldl
    (fun bits ch =>
      match ALPHABET.toList.indexOf? ch with
      | none => bits
      | some idx => bits ++ (List.range 6).map (fun b => (idx >>> b) &&& 1))
    []

/-- The legacy `BitReader` (src/unnamed/part_000 lines 118-141): a flat
bit array and a cursor. -/
structure BitReader where
  bits : List Nat
  i : Nat
deriving Repr, DecidableEq

/-- The loop of the legacy `BitReader.read(n)`:
`v |= ((this.bits[this.i++] ?? 0) & 1) << b`. -/
def bitReadAux : Nat → Nat → Nat → BitReader → Nat × BitReader
  | 0, _, v, br => (v, br)
  | n + 1, b, v, br =>
    let bit := br.bits.getD br.i 0 &&& 1
    bitReadAux n (b + 1) (jsOr32 v (jsShl32 bit b)) { br with i := br.i + 1 }

/-- `BitReader.read(n)` (src/unnamed/part_000 lines 123-129). -/
def BitReader.read (br : BitReader) (n : Nat) : Nat × BitReader :=
  bitReadAux n 0 0 br

/-! ## Node schema and decoder configuration -/

/-- A schema node as the decoder reads it: the JavaScript object may lack
any of the fields, hence the `Option`s.  `entries` holds the length of
the `entries` array when that field is an array. -/
structure Node where
  maxRanks : Option Nat
  type : Option String
  entries : Option Nat
deriving Repr, DecidableEq

/-- One alternative of the hero choice group (`subTreeNodes[0].entries`):
its member node ids and its `traitSubTreeId`. -/
structure SubTreeEntry where
  nodes : List Nat
  traitSubTreeId : Option Nat
deriving Repr, DecidableEq

/-- A `subTreeNodes` element: only its `entries` matter to the core. -/
structure SubTree where
  entries : List SubTreeEntry
deriving Repr, DecidableEq

/-- The model (schema): the canonical node order, the node index built by
`buildNodeIndex` (an association list looked up by id) and the
`subTreeNodes` used by calibration scoring. -/
structure Model where
  fullNodeOrder : List Nat
  nodes : List (Nat × Node)
  subTreeNodes : List SubTree
deriving Repr, DecidableEq

/-- `choiceMode`: "byEntryCount" | "fixed1" | "fixed2". -/
inductive ChoiceMode
  | byEntryCount
  | fixed1
  | fixed2
deriving Repr, DecidableEq

/-- `rankMode`: "plus1" | "raw" | "tiered3". -/
inductive RankMode
  | plus1
  | raw
  | tiered3
deriving Repr, DecidableEq

/-- A decoder configuration (the `opts` bag with all defaults applied). -/
structure Opts where
  headerVarInts : Nat
  choiceMode : ChoiceMode
  choiceExtraBit : Bool
  rankMode : RankMode
deriving Repr, DecidableEq

/-- A decoded selection record. -/
structure SelectionRecord where
  taken : Bool
  ranksTaken : Nat
  maxRanks : Nat
  choiceEntryIndex : Option Nat
deriving Repr, DecidableEq

/-- Lookup in the selection table: the table is the insertion-ordered
list of `byNodeId.set` calls, and a later `set` for the same id shadows
an earlier one, so `get` finds the last binding. -/
def selGet (m : List (Nat × SelectionRecord)) (id : Nat) : Option SelectionRecord :=
  List.lookup id m.reverse

/-- `selections.get(id)?.taken` coerced to a boolean. -/
def selTaken (m : List (Nat × SelectionRecord)) (id : Nat) : Bool :=
  match selGet m id with
  | some r => r.taken
  | none => false

/-! ## Selection decoder (src/app.js lines 152-238) -/

/-- `bitsNeededForMaxRanks` (src/app.js lines 152-158). -/
def bitsNeededForMaxRanks (maxRanks : Nat) : Nat :=
  if maxRanks ≤ 1 then 0
  else if maxRanks ≤ 2 then 1
  else if maxRanks ≤ 4 then 2
  else if maxRanks ≤ 8 then 3
  else 4

/-- The rank computation of a taken single node (src/app.js lines
212-228): width 0 yields rank 1 with no read; otherwise `raw` reads the
width and substitutes 1 for 0, `tiered3` always reads 3 bits and
substitutes 1 for 0, `plus1` (the default) reads the width and adds 1;
each result is clamped to `maxRanks`. -/
def decodeRank (rankMode : RankMode) (maxRanks : Nat) (br : ByteBitReader) :
    Nat × ByteBitReader :=
  let bn := bitsNeededForMaxRanks maxRanks
  if bn = 0 then (1, br)
  else
    match rankMode with
    | .raw =>
      let p := br.readBits bn
      let v := if p.1 ≤ 0 then 1 else p.1
      let v := if v > maxRanks then maxRanks else v
      (v, p.2)
    | .tiered3 =>
      let p := br.readBits 3
      let v := if p.1 ≤ 0 then 1 else p.1
      let v := if v > maxRanks then maxRanks else v
      (v, p.2)
    | .plus1 =>
      let p := br.readBits bn
      let v := p.1 + 1
      let v := if v > maxRanks then maxRanks else v
      (v, p.2)

/-- The choice-field width: `fixed1` → 1, `fixed2` → 2, `byEntryCount` →
1 when the entry count is at most 2, else 2 (src/app.js lines 202-205). -/
def choiceBits (mode : ChoiceMode) (entryCount : Nat) : Nat :=
  match mode with
  | .fixed1 => 1
  | .fixed2 => 2
  | .byEntryCount => if entryCount ≤ 2 then 1 else 2

/-- The per-node body of the decode loop (src/app.js lines 186-232):
defaults `maxRanks = 1`, `type = "single"`, `entries.length = 2` for
missing data, one `taken` bit, then the kind-dependent fields. -/
def decodeNodeStep (node : Option Node) (opts : Opts) (br : ByteBitReader) :
    SelectionRecord × ByteBitReader :=
  let maxRanks := (node.bind Node.maxRanks).getD 1
  let nodeType := (node.bind Node.type).getD "single"
  let pt := br.readBits 1
  let taken := pt.1 == 1
  let br := pt.2
  if taken then
    if nodeType == "choice" then
      let entryCount := (node.bind Node.entries).getD 2
      let pc := br.readBits (choiceBits opts.choiceMode entryCount)
      let br := if opts.choiceExtraBit then (pc.2.readBits 1).2 else pc.2
      ({ taken := true, ranksTaken := 1, maxRanks := maxRanks,
         choiceEntryIndex := some pc.1 }, br)
    else
      let pr := decodeRank opts.rankMode maxRanks br
      ({ taken := true, ranksTaken := pr.1, maxRanks := maxRanks,
         choiceEntryIndex := none }, pr.2)
  else
    ({ taken := false, ranksTaken := 0, maxRanks := maxRanks,
       choiceEntryIndex := none }, br)

/-- The decode loop over `model.fullNodeOrder`: bits are consumed for
every node id, a record is emitted only when the id is in the node
index. -/
def decodeLoop (model : Model) (opts : Opts) :
    List Nat → ByteBitReader → List (Nat × SelectionRecord) →
      List (Nat × SelectionRecord)
  | [], _, acc => acc
  | id :: rest, br, acc =>
    let node := List.lookup id model.nodes
    let p := decodeNodeStep node opts br
    decodeLoop model opts rest p.2
      (if node.isSome then acc ++ [(id, p.1)] else acc)

/-- `headerVarInts` variable-length integers read and discarded. -/
def skipHeader : Nat → ByteBitReader → ByteBitReader
  | 0, br => br
  | n + 1, br => skipHeader n (br.readVarInt).2

/-- The selection decoder from a byte buffer: skip the header varints,
then walk the canonical node order. -/
def decodeSelectionsBytes (bytes : List Nat) (model : Model) (opts : Opts) :
    List (Nat × SelectionRecord) :=
  let br : ByteBitReader := ⟨bytes, 0, 0⟩
  let br := skipHeader opts.headerVarInts br
  decodeLoop model opts model.fullNodeOrder br []

/-- `decodeSelections` (src/app.js lines 160-238): decode the text to
bytes — the only step that can fail — then run the bit-level decode. -/
def decodeSelections (code : String) (model : Model) (opts : Opts) :
    Option (List (Nat × SelectionRecord)) :=
  (base64ToBytes code).map fun bytes => decodeSelectionsBytes bytes model opts

/-! ## Calibration (src/app.js lines 4-14 and 260-326) -/

/-- `CALIBRATION.code`. -/
def calibrationCode : String :=
  "CkQAAAAAAAAAAAAAAAAAAAAAAwMzYGNbjx2MzMzyAAAmZmlZbmZWGDAYBGY2MaMDIzCYZAAAwAAAzMYYMzsNzMzMMzMzMDzMzAAMAA"

/-- `CALIBRATION.expectedTaken` (a JS `Set`, iterated in insertion
order). -/
def calibrationExpectedTaken : List Nat :=
  [71931, 71933, 71949, 71948, 71922, 109847,
   72049, 72050, 72047, 72032, 109860, 72054, 110269, 72046, 109849, 72034,
   109850, 109853]

/-- `CALIBRATION.expectedHeroAll`. -/
def calibrationExpectedHeroAll : Bool := true

/-- The running best of the hero-group fold in `scoreDecode`: initial
value `{nodes: [], taken: -1, traitSubTreeId: null}`. -/
structure HeroBest where
  nodes : List Nat
  taken : Int
  traitSubTreeId : Option Nat
deriving Repr, DecidableEq

/-- The number of member nodes of one alternative that the decode marks
taken. -/
def heroCount (sels : List (Nat × SelectionRecord)) (e : SubTreeEntry) : Int :=
  ((e.nodes.filter (fun nid => selTaken sels nid)).length : Int)

/-- One step of the best-alternative fold of `scoreDecode`: a later entry
replaces the best only on a strictly greater taken-member count, so the
first maximum wins. -/
def heroFoldStep (sels : List (Nat × SelectionRecord))
    (best : HeroBest) (e : SubTreeEntry) : HeroBest :=
  if heroCount sels e > best.taken then
    ⟨e.nodes, heroCount sels e, e.traitSubTreeId⟩
  else best

/-- The fold of `scoreDecode` that picks the alternative with the highest
taken-member count, starting from `{nodes: [], taken: -1}`. -/
def heroBestFold (sels : List (Nat × SelectionRecord))
    (entries : List SubTreeEntry) : HeroBest :=
  entries.foldl (heroFoldStep sels) ⟨[], -1, none⟩

/-- `scoreDecode` (src/app.js lines 261-292): ±2 per expected node id,
then — hero assertion enabled and `subTreeNodes[0]` present with a
nonempty `entries` — ±10 depending on whether every member of the
best alternative is taken. -/
def scoreDecode (model : Model) (sels : List (Nat × SelectionRecord)) : Int :=
  let base := calibrationExpectedTaken.foldl
    (fun s id => s + if selTaken sels id then 2 else -2) 0
  if calibrationExpectedHeroAll then
    match model.subTreeNodes.head? with
    | some subTree =>
      if subTree.entries.isEmpty then base
      else
        let best := heroBestFold sels subTree.entries
        base + (if best.nodes.all (fun nid => selTaken sels nid) then 10 else -10)
    | none => base
  else base

/-- A calibration candidate: a configuration and its score. -/
structure Candidate where
  opts : Opts
  score : Int
deriving Repr, DecidableEq

/-- The `choiceModes` enumeration list of `calibrateDecoder`. -/
def choiceModesList : List ChoiceMode := [.byEntryCount, .fixed1, .fixed2]

/-- The `rankModes` enumeration list of `calibrateDecoder`. -/
def rankModesList : List RankMode := [.plus1, .raw, .tiered3]

/-- The three inner loops of the enumeration of `calibrateDecoder` for
one header count: choice mode, then the extra-bit flag, then rank mode
innermost. -/
def enumInner (h : Nat) : List Opts :=
  choiceModesList.flatMap fun cm =>
    [false, true].flatMap fun eb =>
      rankModesList.map fun rm => ⟨h, cm, eb, rm⟩

/-- The nested enumeration of `calibrateDecoder` (src/app.js lines
297-322): `headerVarInts` 0..40 outermost, then the inner loops. -/
def enumConfigs : List Opts :=
  (List.range 41).flatMap enumInner

/-- The candidate list: one decode of the calibration code per
configuration; a configuration whose decode throws is skipped
(`try`/`catch` with an empty handler). -/
def candidatesFor (model : Model) : List Candidate :=
  enumConfigs.filterMap fun o =>
    match decodeSelections calibrationCode model o with
    | some sels => some ⟨o, scoreDecode model sels⟩
    | none => none

/-- Stable insertion into a list sorted by score descending: the new
element goes before the first element whose score is not larger, so
among equal scores the earlier-enumerated element stays first. -/
def insertDesc (c : Candidate) : List Candidate → List Candidate
  | [] => [c]
  | x :: xs => if x.score ≤ c.score then c :: x :: xs else x :: insertDesc c xs

/-- The stable sort by score descending.  `Array.prototype.sort` with the
consistent comparator `(a, b) => b.score - a.score` is required by
ECMAScript 2019 to be stable, and the stable sort by a total preorder is
unique, so insertion sort computes exactly the array the source sorts. -/
def sortByScoreDesc : List Candidate → List Candidate
  | [] => []
  | x :: xs => insertDesc x (sortByScoreDesc xs)

/-- `calibrateDecoder` (src/app.js lines 294-326): score every
configuration that decodes, sort by score descending, and return the
first candidate, or `null` (here `none`) when there is none. -/
def calibrateDecoder (model : Model) : Option Candidate :=
  (sortByScoreDesc (candidatesFor model)).head?

/-! ## Specification-side notions used by the statements -/

/-- The absolute bit position of a byte-based cursor. -/
def readerPos (st : ByteBitReader) : Nat := 8 * st.byteI + st.bitI

/-- The bit of a byte buffer at absolute position `p`, LSB-first within
each byte, 0 past the end. -/
def streamBit (bytes : List Nat) (p : Nat) : Nat :=
  (bytes.getD (p / 8) 0 >>> (p % 8)) &&& 1

/-- The little-endian 7-bits-per-group value of a varint's byte groups. -/
def varIntValue : List Nat → Nat
  | [] => 0
  | b :: rest => (b &&& 0x7f) + 128 * varIntValue rest

/-- A model is well formed when every node of its index carries a
`maxRanks` of at least 1 (the schema contract: `maxRanks : integer ≥ 1`;
a missing field defaults to 1 in the decoder). -/
def wellFormedModel (m : Model) : Prop :=
  ∀ p ∈ m.nodes, ∀ mr, p.2.maxRanks = some mr → 1 ≤ mr

/-- The enumeration index of a choice mode in `choiceModesList`. -/
def cmIdx : ChoiceMode → Nat
  | .byEntryCount => 0
  | .fixed1 => 1
  | .fixed2 => 2

/-- The enumeration index of the extra-bit flag in `[false, true]`. -/
def ebIdx : Bool → Nat
  | false => 0
  | true => 1

/-- The enumeration index of a rank mode in `rankModesList`. -/
def rmIdx : RankMode → Nat
  | .plus1 => 0
  | .raw => 1
  | .tiered3 => 2

/-! ## Concrete fixtures for witnesses and counterexamples -/

/-- The schema of the documented scenario: canonical order `[10, 11, 12]`,
node 10 Single with `maxRanks` 1, node 11 Choice with 2 alternatives,
node 12 Single with `maxRanks` 2. -/
def scenarioModel : Model :=
  ⟨[10, 11, 12],
    [(10, ⟨some 1, some "single", none⟩),
     (11, ⟨some 1, some "choice", some 2⟩),
     (12, ⟨some 2, some "single", none⟩)], []⟩

/-- A one-node schema with a Choice node of 2 alternatives, used to
exhibit an out-of-range `choiceEntryIndex`. -/
def choiceOnlyModel : Model :=
  ⟨[20], [(20, ⟨some 1, some "choice", some 2⟩)], []⟩

/-- A schema carrying only a hero choice group with two single-node
alternatives, used to instantiate the scoring theorem. -/
def heroOnlyModel : Model :=
  ⟨[], [], [⟨[⟨[1], some 57⟩, ⟨[2], some 58⟩]⟩]⟩

/-- The empty schema: every configuration decodes the calibration code to
an empty table, so calibration scores all 738 candidates. -/
def emptyModel : Model := ⟨[], [], []⟩

/-! ## Helper lemmas: 32-bit operators on disjoint bit ranges -/

theorem jsShl32_small {x b k : Nat} (hx : x < 2 ^ k) (hbk : b + k ≤ 32)
    (hk : 0 < k) : jsShl32 x b = x * 2 ^ b := by
  have hb : b < 32 := by omega
  have h1 : x * 2 ^ b < 2 ^ 32 := by
    calc x * 2 ^ b < 2 ^ k * 2 ^ b :=
          Nat.mul_lt_mul_of_lt_of_le hx (Nat.le_refl _) (Nat.two_pow_pos b)
      _ = 2 ^ (k + b) := by rw [← pow_add]
      _ ≤ 2 ^ 32 := Nat.pow_le_pow_right (by norm_num) (by omega)
  unfold jsShl32
  rw [Nat.mod_eq_of_lt hb, Nat.shiftLeft_eq, Nat.mod_eq_of_lt h1]

theorem jsOr32_shl_add {v x b k : Nat} (hv : v < 2 ^ b) (hx : x < 2 ^ k)
    (hbk : b + k ≤ 32) (hk : 0 < k) :
    jsOr32 v (jsShl32 x b) = v + x * 2 ^ b ∧ v + x * 2 ^ b < 2 ^ (b + k) := by
  have hlt : v + x * 2 ^ b < 2 ^ (b + k) := by
    calc v + x * 2 ^ b < 2 ^ b + x * 2 ^ b := by omega
      _ = (x + 1) * 2 ^ b := by ring
      _ ≤ 2 ^ k * 2 ^ b := Nat.mul_le_mul_right _ (by omega)
      _ = 2 ^ (b + k) := by rw [← pow_add, Nat.add_comm]
  have heq : v + x * 2 ^ b = v ||| x * 2 ^ b := by
    calc v + x * 2 ^ b = 2 ^ b * x + v := by ring
      _ = 2 ^ b * x ||| v := Nat.mul_add_lt_is_or hv x
      _ = v ||| 2 ^ b * x := Nat.lor_comm _ _
      _ = v ||| x * 2 ^ b := by rw [Nat.mul_comm]
  refine ⟨?_, hlt⟩
  have h32 : v + x * 2 ^ b < 2 ^ 32 :=
    lt_of_lt_of_le hlt (Nat.pow_le_pow_right (by norm_num) hbk)
  unfold jsOr32
  rw [jsShl32_small hx hbk hk, ← heq, Nat.mod_eq_of_lt h32]

theorem jsShl32_zero (b : Nat) : jsShl32 0 b = 0 := by
  unfold jsShl32
  simp [Nat.shiftLeft_eq]

theorem jsOr32_zero {v : Nat} (hv : v < 2 ^ 32) : jsOr32 v 0 = v := by
  unfold jsOr32
  rw [Nat.or_zero, Nat.mod_eq_of_lt hv]

theorem and_one_lt_two (x : Nat) : x &&& 1 < 2 ^ 1 :=
  Nat.lt_succ_of_le (Nat.and_le_right)

/-! ## Helper lemmas: the byte-based reader -/

theorem readBitsAux_succ (n b v : Nat) (st : ByteBitReader) :
    readBitsAux (n + 1) b v st =
      readBitsAux n (b + 1)
        (jsOr32 v (jsShl32 ((st.bytes.getD st.byteI 0 >>> st.bitI) &&& 1) b))
        (bumpCursor st) := rfl

theorem bumpCursor_mk (bytes : List Nat) (i bi : Nat) :
    bumpCursor ⟨bytes, i, bi⟩ =
      if bi + 1 ≥ 8 then ⟨bytes, i + 1, 0⟩ else ⟨bytes, i, bi + 1⟩ := by
  unfold bumpCursor
  split <;> rfl

theorem bumpCursor_eq (bytes : List Nat) (i bi : Nat) (h : bi < 8) :
    bumpCursor ⟨bytes, i, bi⟩ =
      ⟨bytes, (8 * i + bi + 1) / 8, (8 * i + bi + 1) % 8⟩ := by
  rw [bumpCursor_mk]
  by_cases h8 : bi + 1 ≥ 8
  · rw [if_pos h8]
    simp only [ByteBitReader.mk.injEq]
    exact ⟨trivial, by omega, by omega⟩
  · rw [if_neg h8]
    simp only [ByteBitReader.mk.injEq]
    exact ⟨trivial, by omega, by omega⟩

theorem readBitsAux_state (n : Nat) :
    ∀ (b v : Nat) (st : ByteBitReader), st.bitI < 8 →
      (readBitsAux n b v st).2 =
        ⟨st.bytes, (readerPos st + n) / 8, (readerPos st + n) % 8⟩ := by
  induction n with
  | zero =>
    intro b v st h
    cases st with | mk bytes i bi =>
    simp only [readBitsAux, readerPos, ByteBitReader.mk.injEq]
    simp only at h
    exact ⟨trivial, by omega, by omega⟩
  | succ n ih =>
    intro b v st h
    cases st with | mk bytes i bi =>
    rw [readBitsAux_succ]
    simp only at h
    rw [bumpCursor_eq bytes i bi h]
    rw [ih _ _ _ (show (8 * i + bi + 1) % 8 < 8 by omega)]
    simp only [readerPos, ByteBitReader.mk.injEq]
    exact ⟨trivial, by omega, by omega⟩

theorem readBits_state (st : ByteBitReader) (n : Nat) (h : st.bitI < 8) :
    (st.readBits n).2 =
      ⟨st.bytes, (readerPos st + n) / 8, (readerPos st + n) % 8⟩ :=
  readBitsAux_state n 0 0 st h

theorem readBitsAux_val (n : Nat) :
    ∀ (b v : Nat) (st : ByteBitReader), st.bitI < 8 → b + n ≤ 32 → v < 2 ^ b →
      (readBitsAux n b v st).1 =
        v + ∑ j ∈ Finset.range n, streamBit st.bytes (readerPos st + j) * 2 ^ (b + j) := by
  induction n with
  | zero => intro b v st _ _ _; simp [readBitsAux]
  | succ n ih =>
    intro b v st h hn hv
    cases st with | mk bytes i bi =>
    simp only at h
    rw [readBitsAux_succ]
    have hbit := and_one_lt_two (bytes.getD i 0 >>> bi)
    obtain ⟨heq, hlt⟩ := jsOr32_shl_add hv hbit (by omega) (by norm_num)
    rw [heq, bumpCursor_eq bytes i bi h,
      ih _ _ _ (show (8 * i + bi + 1) % 8 < 8 by omega) (by omega) hlt]
    have hpos : readerPos ⟨bytes, (8 * i + bi + 1) / 8, (8 * i + bi + 1) % 8⟩ =
        readerPos ⟨bytes, i, bi⟩ + 1 := by
      simp only [readerPos]; omega
    rw [hpos]
    have hsb : streamBit bytes (readerPos ⟨bytes, i, bi⟩) =
        (bytes.getD i 0 >>> bi) &&& 1 := by
      simp only [streamBit, readerPos]
      have h1 : (8 * i + bi) / 8 = i := by omega
      have h2 : (8 * i + bi) % 8 = bi := by omega
      rw [h1, h2]
    rw [Finset.sum_range_succ']
    have hterms : ∀ j ∈ Finset.range n,
        streamBit bytes (readerPos ⟨bytes, i, bi⟩ + 1 + j) * 2 ^ (b + 1 + j) =
          streamBit bytes (readerPos ⟨bytes, i, bi⟩ + (j + 1)) * 2 ^ (b + (j + 1)) := by
      intro j _
      have e1 : readerPos ⟨bytes, i, bi⟩ + 1 + j =
          readerPos ⟨bytes, i, bi⟩ + (j + 1) := by omega
      have e2 : b + 1 + j = b + (j + 1) := by omega
      rw [e1, e2]
    rw [Finset.sum_congr rfl hterms]
    simp only [Nat.add_zero]
    rw [hsb]
    ring

theorem readBitsAux_lt (n : Nat) :
    ∀ (b v : Nat) (st : ByteBitReader), b + n ≤ 32 → v < 2 ^ b →
      (readBitsAux n b v st).1 < 2 ^ (b + n) := by
  induction n with
  | zero => intro b v st _ hv; simpa [readBitsAux] using hv
  | succ n ih =>
    intro b v st hn hv
    rw [readBitsAux_succ]
    have hbit := and_one_lt_two (st.bytes.getD st.byteI 0 >>> st.bitI)
    obtain ⟨heq, hlt⟩ := jsOr32_shl_add hv hbit (by omega) (by norm_num)
    rw [heq]
    have := ih (b + 1) _ (bumpCursor st) (by omega) hlt
    have e : b + 1 + n = b + (n + 1) := by omega
    rwa [e] at this

theorem readBits_lt (st : ByteBitReader) (n : Nat) (hn : n ≤ 32) :
    (st.readBits n).1 < 2 ^ n := by
  have := readBitsAux_lt n 0 0 st (by omega) (by norm_num)
  simpa using this

theorem getD_append_zeros (l : List Nat) (k i : Nat) :
    (l ++ List.replicate k 0).getD i 0 = l.getD i 0 := by
  rw [List.getD_eq_getElem?_getD, List.getD_eq_getElem?_getD,
    List.getElem?_append]
  by_cases h : i < l.length
  · rw [if_pos h]
  · rw [if_neg h, List.getElem?_replicate, List.getElem?_eq_none (by omega)]
    by_cases h2 : i - l.length < k
    · rw [if_pos h2]
      rfl
    · rw [if_neg h2]

theorem readBitsAux_past (n : Nat) :
    ∀ (b v : Nat) (st : ByteBitReader), v < 2 ^ 32 → st.bitI < 8 →
      8 * st.bytes.length ≤ readerPos st → (readBitsAux n b v st).1 = v := by
  induction n with
  | zero => intro b v st _ _ _; rfl
  | succ n ih =>
    intro b v st hv h hp
    cases st with | mk bytes i bi =>
    simp only [readerPos] at hp
    simp only at h
    rw [readBitsAux_succ]
    have hlen : bytes.length ≤ i := by omega
    have hg : (⟨bytes, i, bi⟩ : ByteBitReader).bytes.getD
        (⟨bytes, i, bi⟩ : ByteBitReader).byteI 0 = 0 :=
      List.getD_eq_default _ _ hlen
    rw [hg]
    have hz : (0 >>> bi) &&& 1 = 0 := by simp
    simp only
    rw [hz, jsShl32_zero, jsOr32_zero hv, bumpCursor_eq bytes i bi h]
    apply ih _ _ _ hv
    · show (8 * i + bi + 1) % 8 < 8
      omega
    · show 8 * bytes.length ≤ readerPos _
      simp only [readerPos]
      omega

theorem readBits_past (st : ByteBitReader) (n : Nat) (h : st.bitI < 8)
    (hp : 8 * st.bytes.length ≤ readerPos st) : (st.readBits n).1 = 0 :=
  readBitsAux_past n 0 0 st (by norm_num) h hp

theorem readBitsAux_zero_ext (n : Nat) :
    ∀ (b v : Nat) (bytes : List Nat) (i bi k : Nat),
      readBitsAux n b v ⟨bytes ++ List.replicate k 0, i, bi⟩ =
        ((readBitsAux n b v ⟨bytes, i, bi⟩).1,
          ⟨bytes ++ List.replicate k 0,
            (readBitsAux n b v ⟨bytes, i, bi⟩).2.byteI,
            (readBitsAux n b v ⟨bytes, i, bi⟩).2.bitI⟩) := by
  induction n with
  | zero => intro b v bytes i bi k; rfl
  | succ n ih =>
    intro b v bytes i bi k
    rw [readBitsAux_succ, readBitsAux_succ]
    simp only [getD_append_zeros, bumpCursor_mk]
    by_cases h8 : bi + 1 ≥ 8
    · rw [if_pos h8, if_pos h8]
      exact ih _ _ _ _ _ _
    · rw [if_neg h8, if_neg h8]
      exact ih _ _ _ _ _ _

/-! ## Helper lemmas: the legacy bit-array reader -/

theorem bitReadAux_succ (n b v : Nat) (br : BitReader) :
    bitReadAux (n + 1) b v br =
      bitReadAux n (b + 1) (jsOr32 v (jsShl32 (br.bits.getD br.i 0 &&& 1) b))
        ⟨br.bits, br.i + 1⟩ := rfl

theorem bitReadAux_state (n : Nat) :
    ∀ (b v : Nat) (br : BitReader), (bitReadAux n b v br).2 = ⟨br.bits, br.i + n⟩ := by
  induction n with
  | zero => intro b v br; rfl
  | succ n ih =>
    intro b v br
    rw [bitReadAux_succ, ih]
    simp only [BitReader.mk.injEq]
    exact ⟨trivial, by omega⟩

theorem bitReadAux_zero_ext (n : Nat) :
    ∀ (b v : Nat) (bits : List Nat) (i k : Nat),
      (bitReadAux n b v ⟨bits ++ List.replicate k 0, i⟩).1 =
        (bitReadAux n b v ⟨bits, i⟩).1 := by
  induction n with
  | zero => intro b v bits i k; rfl
  | succ n ih =>
    intro b v bits i k
    rw [bitReadAux_succ, bitReadAux_succ]
    simp only [getD_append_zeros]
    exact ih _ _ _ _ _

theorem bitReadAux_past (n : Nat) :
    ∀ (b v : Nat) (br : BitReader), v < 2 ^ 32 → br.bits.length ≤ br.i →
      (bitReadAux n b v br).1 = v := by
  induction n with
  | zero => intro b v br _ _; rfl
  | succ n ih =>
    intro b v br hv hp
    cases br with | mk bits i =>
    rw [bitReadAux_succ]
    simp only at hp ⊢
    rw [List.getD_eq_default _ _ hp]
    have hz : (0 : Nat) &&& 1 = 0 := rfl
    rw [hz, jsShl32_zero, jsOr32_zero hv]
    exact ih _ _ _ hv (by simp; omega)

/-! ## Helper lemmas: varints -/

theorem and127_lt (x : Nat) : x &&& 0x7f < 2 ^ 7 := by
  have h : x &&& 0x7f ≤ 0x7f := Nat.and_le_right
  have h2 : (2 : Nat) ^ 7 = 128 := by norm_num
  omega

theorem readVarIntAux_cons (byte : Nat) (rest : List Nat) (shift out : Nat) :
    readVarIntAux (byte :: rest) shift out =
      if byte &&& 0x80 = 0 then
        (jsOr32 out (jsShl32 (byte &&& 0x7f) shift), 1)
      else
        ((readVarIntAux rest (shift + 7)
            (jsOr32 out (jsShl32 (byte &&& 0x7f) shift))).1,
          (readVarIntAux rest (shift + 7)
            (jsOr32 out (jsShl32 (byte &&& 0x7f) shift))).2 + 1) := rfl

theorem readVarIntAux_spec :
    ∀ (cont : List Nat) (last : Nat) (rest : List Nat) (shift out : Nat),
      (∀ x ∈ cont, x &&& 0x80 ≠ 0) → last &&& 0x80 = 0 →
      shift + 7 * cont.length + 7 ≤ 32 → out < 2 ^ shift →
      readVarIntAux (cont ++ last :: rest) shift out =
        (out + varIntValue (cont ++ [last]) * 2 ^ shift, cont.length + 1) := by
  intro cont
  induction cont with
  | nil =>
    intro last rest shift out _ hlast hsh hout
    simp only [List.nil_append, List.length_nil]
    rw [readVarIntAux_cons, if_pos hlast]
    obtain ⟨heq, _⟩ := jsOr32_shl_add hout (and127_lt last) (by omega) (by norm_num)
    rw [heq]
    have hval : varIntValue [last] = last &&& 0x7f := by
      simp [varIntValue]
    rw [hval]
  | cons bhd ctl ih =>
    intro last rest shift out hcont hlast hsh hout
    have hsh1 : shift + 7 * ctl.length + 14 ≤ 32 := by
      simp only [List.length_cons] at hsh
      omega
    rw [List.cons_append, readVarIntAux_cons,
      if_neg (hcont bhd (List.mem_cons_self _ _))]
    obtain ⟨heq, hlt⟩ := jsOr32_shl_add hout (and127_lt bhd) (by omega) (by norm_num)
    rw [heq,
      ih last rest (shift + 7) _ (fun x hx => hcont x (List.mem_cons_of_mem _ hx))
        hlast (by omega) hlt]
    have hval : varIntValue (bhd :: (ctl ++ [last])) =
        (bhd &&& 0x7f) + 128 * varIntValue (ctl ++ [last]) := rfl
    rw [List.cons_append, hval, Prod.mk.injEq]
    refine ⟨?_, by simp⟩
    have hp : (2 : Nat) ^ (shift + 7) = 2 ^ shift * 128 := by
      rw [pow_add]; norm_num
    rw [hp]
    ring


theorem alignToByte_eq (st : ByteBitReader) :
    st.alignToByte =
      ⟨st.bytes, if st.bitI ≠ 0 then st.byteI + 1 else st.byteI, 0⟩ := by
  cases st with | mk bytes i bi =>
  unfold ByteBitReader.alignToByte
  simp only
  by_cases h : bi ≠ 0
  · rw [if_pos h, if_pos h]
  · rw [if_neg h, if_neg h]
    simp only [ByteBitReader.mk.injEq]
    exact ⟨trivial, trivial, by omega⟩

/-! ## Claim theorems C3 and C4: the bit reader -/

/-- C3: `readVarInt()` first aligns the cursor to the next byte boundary,
then accumulates the low 7 bits of successive bytes little-endian, 7 bits
per group, stopping at the first byte whose high bit is clear; on the
byte sequence `[0x85, 0x02]` from a byte boundary it returns 261.  The
theorem is stated for any varint of at most four groups (longer varints
would overflow the 32-bit accumulator of the source). -/
theorem readVarInt_aligns_and_accumulates (st : ByteBitReader)
    (cont : List Nat) (last : Nat) (rest : List Nat)
    (hdrop : st.alignToByte.bytes.drop st.alignToByte.byteI = cont ++ last :: rest)
    (hcont : ∀ x ∈ cont, x &&& 0x80 ≠ 0) (hlast : last &&& 0x80 = 0)
    (hlen : cont.length ≤ 3) :
    st.readVarInt =
        (varIntValue (cont ++ [last]),
          ⟨st.bytes, st.alignToByte.byteI + (cont.length + 1), 0⟩) ∧
      (ByteBitReader.readVarInt ⟨[0x85, 0x02], 0, 0⟩).1 = 261 := by
  refine ⟨?_, by decide⟩
  have hspec := readVarIntAux_spec cont last rest 0 0 hcont hlast (by omega)
    (by norm_num)
  unfold ByteBitReader.readVarInt
  simp only
  rw [hdrop, hspec]
  simp only [Prod.mk.injEq]
  constructor
  · simp
  · rw [alignToByte_eq]

/-- C4: `readBits(n)` never fails: it is total, the cursor advances by
exactly `n` bit positions whatever the buffer length, the value read from
a buffer equals the value read from the same buffer extended with zero
bytes (missing positions contribute zero bits), and a read that starts at
or past the end of the buffer returns 0.  The final conjunct states the
same tolerance for the legacy `BitReader.read`.  Consequently decoding
never raises an error during bit reading. -/
theorem readBits_tolerant_past_end (st : ByteBitReader) (n k : Nat)
    (h : st.bitI < 8) :
    (st.readBits n).2 =
        ⟨st.bytes, (readerPos st + n) / 8, (readerPos st + n) % 8⟩ ∧
      readerPos (st.readBits n).2 = readerPos st + n ∧
      (ByteBitReader.readBits
          ⟨st.bytes ++ List.replicate k 0, st.byteI, st.bitI⟩ n).1 =
        (st.readBits n).1 ∧
      (8 * st.bytes.length ≤ readerPos st → (st.readBits n).1 = 0) ∧
      ∀ (br : BitReader) (m j : Nat),
        (br.read m).2 = ⟨br.bits, br.i + m⟩ ∧
          (BitReader.read ⟨br.bits ++ List.replicate j 0, br.i⟩ m).1 =
            (br.read m).1 ∧
          (br.bits.length ≤ br.i → (br.read m).1 = 0) := by
  refine ⟨readBits_state st n h, ?_, ?_, readBits_past st n h, ?_⟩
  · rw [readBits_state st n h]
    simp only [readerPos]
    omega
  · have hz := readBitsAux_zero_ext n 0 0 st.bytes st.byteI st.bitI k
    calc (ByteBitReader.readBits
            ⟨st.bytes ++ List.replicate k 0, st.byteI, st.bitI⟩ n).1
        = (readBitsAux n 0 0 ⟨st.bytes ++ List.replicate k 0, st.byteI, st.bitI⟩).1 := rfl
      _ = (readBitsAux n 0 0 ⟨st.bytes, st.byteI, st.bitI⟩).1 := by rw [hz]
      _ = (st.readBits n).1 := rfl
  · intro br m j
    refine ⟨bitReadAux_state m 0 0 br, ?_,
      fun hp => bitReadAux_past m 0 0 br (by norm_num) hp⟩
    exact bitReadAux_zero_ext m 0 0 br.bits br.i j

/-! ## Helper lemmas: the selection decoder -/

theorem lookup_mem {β : Type} (a : Nat) (b : β) :
    ∀ l : List (Nat × β), List.lookup a l = some b → (a, b) ∈ l := by
  intro l
  induction l with
  | nil => intro h; simp [List.lookup] at h
  | cons p t ih =>
    intro h
    cases p with | mk k v =>
    by_cases hk : a = k
    · subst hk
      rw [List.lookup, beq_self_eq_true] at h
      simp only [Option.some.injEq] at h
      subst h
      exact List.mem_cons_self _ _
    · rw [List.lookup, beq_eq_false_iff_ne.mpr hk] at h
      exact List.mem_cons_of_mem _ (ih h)

theorem choiceBits_le (mode : ChoiceMode) (ec : Nat) : choiceBits mode ec ≤ 2 := by
  cases mode
  · show (if ec ≤ 2 then 1 else 2) ≤ 2
    split <;> omega
  · show 1 ≤ 2
    omega
  · show 2 ≤ 2
    omega

/-- `decodeRank` with a nonzero width, written with `min`/`max` instead
of the source's clamping conditionals. -/
theorem decodeRank_eq (rm : RankMode) (m : Nat) (br : ByteBitReader)
    (h0 : bitsNeededForMaxRanks m ≠ 0) :
    decodeRank rm m br =
      match rm with
      | RankMode.plus1 =>
        (min ((br.readBits (bitsNeededForMaxRanks m)).1 + 1) m,
          (br.readBits (bitsNeededForMaxRanks m)).2)
      | RankMode.raw =>
        (min (max (br.readBits (bitsNeededForMaxRanks m)).1 1) m,
          (br.readBits (bitsNeededForMaxRanks m)).2)
      | RankMode.tiered3 =>
        (min (max (br.readBits 3).1 1) m, (br.readBits 3).2) := by
  unfold decodeRank
  rw [if_neg h0]
  cases rm
  · rw [Prod.mk.injEq]
    refine ⟨?_, rfl⟩
    split <;> omega
  · rw [Prod.mk.injEq]
    refine ⟨?_, rfl⟩
    generalize (br.readBits (bitsNeededForMaxRanks m)).1 = v
    by_cases hv : v ≤ 0
    · rw [if_pos hv]
      split <;> omega
    · rw [if_neg hv]
      split <;> omega
  · rw [Prod.mk.injEq]
    refine ⟨?_, rfl⟩
    generalize (br.readBits 3).1 = v
    by_cases hv : v ≤ 0
    · rw [if_pos hv]
      split <;> omega
    · rw [if_neg hv]
      split <;> omega

theorem decodeRank_bounds (rm : RankMode) (m : Nat) (br : ByteBitReader)
    (hm : 1 ≤ m) : 1 ≤ (decodeRank rm m br).1 ∧ (decodeRank rm m br).1 ≤ m := by
  by_cases h0 : bitsNeededForMaxRanks m = 0
  · unfold decodeRank
    rw [if_pos h0]
    exact ⟨Nat.le_refl 1, hm⟩
  · rw [decodeRank_eq rm m br h0]
    cases rm <;> constructor <;> simp only <;> omega

/-- The shape of every record `decodeNodeStep` produces: the copied
`maxRanks`, rank 0 exactly for a not-taken node, rank in `[1, maxRanks]`
for a taken node of a well-formed schema, and a `choiceEntryIndex` that
is present only for a taken choice node and is the value of a 1- or
2-bit read. -/
theorem decodeNodeStep_record (node : Option Node) (opts : Opts)
    (br : ByteBitReader) :
    ((decodeNodeStep node opts br).1.maxRanks = (node.bind Node.maxRanks).getD 1) ∧
    ((decodeNodeStep node opts br).1.taken = false →
      (decodeNodeStep node opts br).1.ranksTaken = 0 ∧
        (decodeNodeStep node opts br).1.choiceEntryIndex = none) ∧
    ((decodeNodeStep node opts br).1.taken = true →
      1 ≤ (node.bind Node.maxRanks).getD 1 →
      1 ≤ (decodeNodeStep node opts br).1.ranksTaken ∧
        (decodeNodeStep node opts br).1.ranksTaken ≤
          (decodeNodeStep node opts br).1.maxRanks) ∧
    (∀ v, (decodeNodeStep node opts br).1.choiceEntryIndex = some v →
      (decodeNodeStep node opts br).1.taken = true ∧
        (node.bind Node.type).getD "single" = "choice" ∧ v < 4) := by
  unfold decodeNodeStep
  by_cases ht : ((br.readBits 1).1 == 1) = true
  · rw [if_pos ht]
    by_cases hc : ((node.bind Node.type).getD "single" == "choice") = true
    · rw [if_pos hc]
      refine ⟨rfl, ?_, ?_, ?_⟩
      · intro h
        simp at h
      · intro _ hm
        exact ⟨Nat.le_refl 1, hm⟩
      · intro v hv
        simp only [Option.some.injEq] at hv
        refine ⟨rfl, eq_of_beq hc, ?_⟩
        subst hv
        have hcb := choiceBits_le opts.choiceMode ((node.bind Node.entries).getD 2)
        have hvlt := readBits_lt (br.readBits 1).2
          (choiceBits opts.choiceMode ((node.bind Node.entries).getD 2)) (by omega)
        calc ((br.readBits 1).2.readBits
                (choiceBits opts.choiceMode ((node.bind Node.entries).getD 2))).1
            < 2 ^ choiceBits opts.choiceMode ((node.bind Node.entries).getD 2) := hvlt
          _ ≤ 2 ^ 2 := Nat.pow_le_pow_right (by norm_num) hcb
          _ = 4 := by norm_num
    · rw [if_neg hc]
      refine ⟨rfl, ?_, ?_, ?_⟩
      · intro h
        simp at h
      · intro _ hm
        exact decodeRank_bounds opts.rankMode _ _ hm
      · intro v hv
        simp at hv
  · rw [if_neg ht]
    refine ⟨rfl, fun _ => ⟨rfl, rfl⟩, ?_, ?_⟩
    · intro h
      simp at h
    · intro v hv
      simp at hv

theorem decodeLoop_cons (model : Model) (opts : Opts) (id : Nat)
    (rest : List Nat) (br : ByteBitReader)
    (acc : List (Nat × SelectionRecord)) :
    decodeLoop model opts (id :: rest) br acc =
      decodeLoop model opts rest
        (decodeNodeStep (List.lookup id model.nodes) opts br).2
        (if (List.lookup id model.nodes).isSome then
          acc ++ [(id, (decodeNodeStep (List.lookup id model.nodes) opts br).1)]
        else acc) := rfl

/-- Provenance of table entries: every pair the loop emits comes from
`decodeNodeStep` on the id's node, and only ids present in the node
index are emitted. -/
theorem decodeLoop_mem (model : Model) (opts : Opts) :
    ∀ (order : List Nat) (br : ByteBitReader)
      (acc : List (Nat × SelectionRecord)) (x : Nat × SelectionRecord),
      x ∈ decodeLoop model opts order br acc →
      x ∈ acc ∨ ∃ br2, (List.lookup x.1 model.nodes).isSome ∧
        x.2 = (decodeNodeStep (List.lookup x.1 model.nodes) opts br2).1 := by
  intro order
  induction order with
  | nil => intro br acc x hx; exact Or.inl hx
  | cons id rest ih =>
    intro br acc x hx
    rw [decodeLoop_cons] at hx
    rcases ih _ _ _ hx with hmem | h
    · by_cases hs : (List.lookup id model.nodes).isSome
      · rw [if_pos hs] at hmem
        rcases List.mem_append.mp hmem with h1 | h2
        · exact Or.inl h1
        · rcases List.mem_singleton.mp h2 with rfl
          exact Or.inr ⟨br, hs, rfl⟩
      · rw [if_neg hs] at hmem
        exact Or.inl hmem
    · exact Or.inr h

/-! ## Claim theorems C1, C5, C6, C7: the selection decoder -/

/-- C1: for every well-formed schema, every configuration and every input
the byte-decode stage accepts, every emitted record has `ranksTaken = 0`
when `taken` is false and `1 ≤ ranksTaken ≤ maxRanks` when `taken` is
true. -/
theorem selection_rank_invariant (model : Model) (opts : Opts) (code : String)
    (table : List (Nat × SelectionRecord)) (hwf : wellFormedModel model)
    (hdec : decodeSelections code model opts = some table) :
    ∀ id r, (id, r) ∈ table →
      (r.taken = false → r.ranksTaken = 0) ∧
      (r.taken = true → 1 ≤ r.ranksTaken ∧ r.ranksTaken ≤ r.maxRanks) := by
  intro id r hmem
  unfold decodeSelections at hdec
  cases hb : base64ToBytes code with
  | none => rw [hb] at hdec; cases hdec
  | some bytes =>
    rw [hb] at hdec
    simp only [Option.map_some', Option.some.injEq] at hdec
    subst hdec
    have hprov := decodeLoop_mem model opts model.fullNodeOrder _ [] (id, r) hmem
    rcases hprov with h | ⟨br2, hsome, heq⟩
    · cases h
    · have hmr : 1 ≤ ((List.lookup id model.nodes).bind Node.maxRanks).getD 1 := by
        cases hn : List.lookup id model.nodes with
        | none => simp
        | some nd =>
          cases hm : nd.maxRanks with
          | none => simp [hm]
          | some m =>
            have hmem2 := lookup_mem id nd model.nodes hn
            have := hwf (id, nd) hmem2 m hm
            simpa [hm] using this
      obtain ⟨hmax, hfalse, htrue, hcei⟩ :=
        decodeNodeStep_record (List.lookup id model.nodes) opts br2
      simp only at heq
      rw [heq]
      exact ⟨fun hf => (hfalse hf).1, fun htk => htrue htk hmr⟩

/-- C5 (amended): `choiceEntryIndex` is present in a record only when the
node's kind is choice and the node is taken, and its value is bounded by
the width of the field that was read — it is always less than 4 (2 bits
at most), but it is not in general less than `alternativeCount`. -/
theorem chosenAlternative_shape (model : Model) (opts : Opts) (code : String)
    (table : List (Nat × SelectionRecord))
    (hdec : decodeSelections code model opts = some table) :
    ∀ id r, (id, r) ∈ table → ∀ v, r.choiceEntryIndex = some v →
      r.taken = true ∧
        ((List.lookup id model.nodes).bind Node.type).getD "single" = "choice" ∧
        v < 4 := by
  intro id r hmem v hv
  unfold decodeSelections at hdec
  cases hb : base64ToBytes code with
  | none => rw [hb] at hdec; cases hdec
  | some bytes =>
    rw [hb] at hdec
    simp only [Option.map_some', Option.some.injEq] at hdec
    subst hdec
    have hprov := decodeLoop_mem model opts model.fullNodeOrder _ [] (id, r) hmem
    rcases hprov with h | ⟨br2, hsome, heq⟩
    · cases h
    · obtain ⟨hmax, hfalse, htrue, hcei⟩ :=
        decodeNodeStep_record (List.lookup id model.nodes) opts br2
      simp only at heq
      rw [heq] at hv
      obtain ⟨h1, h2, h3⟩ := hcei v hv
      rw [heq]
      exact ⟨h1, h2, h3⟩

/-- C5 counterexample: under `choiceMode = "fixed2"` the one-byte input
`[7]` (bits 1,1,1,0,…) makes the 2-alternative choice node 20 decode
with `chosenAlternative = 3`, which is not below `alternativeCount = 2`;
the claim's range `[0, alternativeCount)` is therefore violated. -/
theorem chosenAlternative_out_of_range :
    selGet (decodeSelectionsBytes [7] choiceOnlyModel
        ⟨0, ChoiceMode.fixed2, false, RankMode.plus1⟩) 20 =
      some ⟨true, 1, 1, some 3⟩ ∧
    ((List.lookup 20 choiceOnlyModel.nodes).bind Node.entries).getD 2 = 2 ∧
    ¬(3 < 2) := by
  refine ⟨by decide, by decide, by omega⟩

/-- C6: the rank-field width is computed by the mapping `{maxRanks ≤ 1 →
0, ≤ 2 → 1, ≤ 4 → 2, ≤ 8 → 3, else 4}`; width 0 yields `ranksTaken = 1`
with no read; otherwise `plus1` reads the width and adds 1 clamped to
`maxRanks`, `raw` reads the width substituting 1 for 0 and clamping, and
`tiered3` always reads exactly 3 bits substituting 1 for 0 and
clamping. -/
theorem rank_decode_modes (rm : RankMode) (m : Nat) (br : ByteBitReader) :
    (bitsNeededForMaxRanks m =
        if m ≤ 1 then 0 else if m ≤ 2 then 1 else if m ≤ 4 then 2
        else if m ≤ 8 then 3 else 4) ∧
      (bitsNeededForMaxRanks m = 0 → decodeRank rm m br = (1, br)) ∧
      (bitsNeededForMaxRanks m ≠ 0 →
        (rm = RankMode.plus1 →
          decodeRank rm m br =
            (min ((br.readBits (bitsNeededForMaxRanks m)).1 + 1) m,
              (br.readBits (bitsNeededForMaxRanks m)).2)) ∧
        (rm = RankMode.raw →
          decodeRank rm m br =
            (min (max (br.readBits (bitsNeededForMaxRanks m)).1 1) m,
              (br.readBits (bitsNeededForMaxRanks m)).2)) ∧
        (rm = RankMode.tiered3 →
          decodeRank rm m br =
            (min (max (br.readBits 3).1 1) m, (br.readBits 3).2))) := by
  refine ⟨rfl, ?_, ?_⟩
  · intro h0
    unfold decodeRank
    rw [if_pos h0]
  · intro h0
    exact ⟨fun hrm => by rw [hrm, decodeRank_eq _ m br h0],
      fun hrm => by rw [hrm, decodeRank_eq _ m br h0],
      fun hrm => by rw [hrm, decodeRank_eq _ m br h0]⟩

/-- C7: on the documented scenario schema, with `headerFieldCount = 0`
and any choice-bit policy, trailing-bit flag and rank encoding, the
one-byte input with LSB-first bits 1,1,0,… decodes node 10 as taken with
one rank, node 11 as taken with `chosenAlternative = 0` and one rank,
and node 12 as not taken with zero ranks. -/
theorem scenario_decode (cm : ChoiceMode) (eb : Bool) (rm : RankMode) :
    decodeSelectionsBytes [3] scenarioModel ⟨0, cm, eb, rm⟩ =
      [(10, ⟨true, 1, 1, none⟩), (11, ⟨true, 1, 1, some 0⟩),
        (12, ⟨false, 0, 2, none⟩)] := by
  cases cm <;> cases eb <;> cases rm <;> decide

/-! ## Helper lemmas and claim C2: the byte decoder -/

/-- `stripTrailingEq2` removes only `=` characters, and only from the
end. -/
theorem stripTrailingEq2_spec (l : List Char) :
    ∃ tail : List Char, l = stripTrailingEq2 l ++ tail ∧ ∀ c ∈ tail, c = '=' := by
  unfold stripTrailingEq2
  split
  next heq =>
    refine ⟨['=', '='], ?_, ?_⟩
    · have hl := congrArg List.reverse heq
      rw [List.reverse_reverse] at hl
      rw [hl]
      simp
    · intro c hc
      simp at hc
      exact hc
  next hno heq =>
    refine ⟨['='], ?_, ?_⟩
    · have hl := congrArg List.reverse heq
      rw [List.reverse_reverse] at hl
      rw [hl]
      simp
    · intro c hc
      simp at hc
      exact hc
  next =>
    exact ⟨[], by simp, by intro c hc; cases hc⟩

theorem mem_atobData {c : Char} {l : List Char} (hc : c ∈ l)
    (hws : isAsciiWhitespace c = false) (hne : c ≠ '=') : c ∈ atobData l := by
  have hc1 : c ∈ l.filter (fun c => !(isAsciiWhitespace c)) :=
    List.mem_filter.mpr ⟨hc, by rw [hws]; rfl⟩
  show c ∈
    if (l.filter (fun c => !(isAsciiWhitespace c))).length % 4 = 0 then
      stripTrailingEq2 (l.filter (fun c => !(isAsciiWhitespace c)))
    else l.filter (fun c => !(isAsciiWhitespace c))
  split
  · obtain ⟨tail, hsplit, htail⟩ :=
      stripTrailingEq2_spec (l.filter (fun c => !(isAsciiWhitespace c)))
    rw [hsplit] at hc1
    rcases List.mem_append.mp hc1 with h | h
    · exact h
    · exact absurd (htail c h) hne
  · exact hc1

theorem atobForgiving_bad_char {l : List Char} {c : Char} (hc : c ∈ l)
    (hws : isAsciiWhitespace c = false) (hb : isB64Char c = false)
    (hne : c ≠ '=') : atobForgiving l = none := by
  have hc2 : c ∈ atobData l := mem_atobData hc hws hne
  show (if (atobData l).length % 4 = 1 then none
    else if (atobData l).any (fun c => !(isB64Char c)) then none
    else some (b64Chunks (atobData l))) = none
  by_cases hl : (atobData l).length % 4 = 1
  · rw [if_pos hl]
  · have hany : (atobData l).any (fun c => !(isB64Char c)) = true :=
      List.any_eq_true.mpr ⟨c, hc2, by rw [hb]; rfl⟩
    rw [if_neg hl, if_pos hany]

/-- C2 (amended): a character of the trimmed input that is outside the
64-symbol alphabet and is neither ASCII whitespace nor `=` always makes
`base64ToBytes` fail with the `MalformedInput` error.  ASCII whitespace
inside the input is instead silently removed by the base64 routine, and
the legacy `decodeToBits` silently drops every unrecognized character;
the claim's universal failure statement holds only with those two
exclusions. -/
theorem base64_rejects_nonalphabet (s : String) (c : Char)
    (hc : c ∈ jsTrim s.toList) (hws : isAsciiWhitespace c = false)
    (hb : isB64Char c = false) (hne : c ≠ '=') :
    base64ToBytes s = none := by
  unfold base64ToBytes
  exact atobForgiving_bad_char (List.mem_append.mpr (Or.inl hc)) hws hb hne

theorem base64_rejects_nonalphabet_witness :
    base64ToBytes "AB!C" = none ∧
      ('!' ∈ jsTrim ("AB!C").toList ∧ isB64Char '!' = false) :=
  ⟨base64_rejects_nonalphabet "AB!C" '!' (by decide) (by decide) (by decide)
      (by decide),
    by decide, by decide⟩

/-- C2 counterexample: the input `"AB    CD"` contains spaces — outside
the 64-symbol alphabet even after trimming (which strips only the ends)
— yet `base64ToBytes` succeeds, silently dropping them; and the legacy
`decodeToBits` silently drops the unrecognized `!` instead of failing.
Both refute "the byte-decode stage fails … no character is ever silently
dropped" as a universal statement. -/
theorem nonalphabet_silently_dropped :
    (' ' ∈ jsTrim ("AB    CD").toList ∧ isB64Char ' ' = false) ∧
      base64ToBytes "AB    CD" = some [0, 16, 131] ∧
      decodeToBits "!B" = decodeToBits "B" ∧
      decodeToBits "B" = [1, 0, 0, 0, 0, 0] := by
  refine ⟨⟨?_, ?_⟩, ?_, ?_, ?_⟩ <;> decide

/-! ## Witnesses for the reader and decoder claims -/

theorem readVarInt_aligns_witness :
    ByteBitReader.readVarInt ⟨[0x85, 0x02], 0, 0⟩ =
        (varIntValue [0x85, 0x02], ⟨[0x85, 0x02], 2, 0⟩) ∧
      varIntValue [0x85, 0x02] = 261 :=
  ⟨(readVarInt_aligns_and_accumulates ⟨[0x85, 0x02], 0, 0⟩ [0x85] 0x02 []
        (by decide) (by decide) (by decide) (by decide)).1,
    by decide⟩

theorem readBits_tolerant_witness :
    (ByteBitReader.readBits ⟨[5], 0, 0⟩ 16).2 = ⟨[5], 2, 0⟩ ∧
      (ByteBitReader.readBits ⟨[5, 0, 0], 0, 0⟩ 16).1 =
        (ByteBitReader.readBits ⟨[5], 0, 0⟩ 16).1 :=
  ⟨(readBits_tolerant_past_end ⟨[5], 0, 0⟩ 16 2 (by norm_num)).1,
    (readBits_tolerant_past_end ⟨[5], 0, 0⟩ 16 2 (by norm_num)).2.2.1⟩

theorem selection_rank_invariant_witness :
    wellFormedModel scenarioModel ∧
      ∀ id r, (id, r) ∈ ([(10, ⟨true, 1, 1, none⟩), (11, ⟨true, 1, 1, some 0⟩),
          (12, ⟨false, 0, 2, none⟩)] : List (Nat × SelectionRecord)) →
        (r.taken = false → r.ranksTaken = 0) ∧
        (r.taken = true → 1 ≤ r.ranksTaken ∧ r.ranksTaken ≤ r.maxRanks) := by
  have hwf : wellFormedModel scenarioModel := by
    intro p hp mr hmr
    fin_cases hp <;> (simp_all; try omega)
  exact ⟨hwf, selection_rank_invariant scenarioModel
    ⟨0, ChoiceMode.byEntryCount, false, RankMode.plus1⟩ "Aw"
    [(10, ⟨true, 1, 1, none⟩), (11, ⟨true, 1, 1, some 0⟩),
      (12, ⟨false, 0, 2, none⟩)] hwf (by decide)⟩

theorem chosenAlternative_shape_witness :
    true = true ∧
      ((List.lookup 11 scenarioModel.nodes).bind Node.type).getD "single" =
        "choice" ∧
      (0 : Nat) < 4 :=
  chosenAlternative_shape scenarioModel
    ⟨0, ChoiceMode.byEntryCount, false, RankMode.plus1⟩ "Aw"
    [(10, ⟨true, 1, 1, none⟩), (11, ⟨true, 1, 1, some 0⟩),
      (12, ⟨false, 0, 2, none⟩)] (by decide) 11 ⟨true, 1, 1, some 0⟩
    (by decide) 0 (by decide)

/-! ## Helper lemmas and claim C8: calibration scoring -/

/-- The fold of `scoreDecode` over the hero alternatives computes the
first entry attaining the maximal taken-member count (or keeps its
initial value when nothing beats it). -/
theorem heroFold_firstMax (sels : List (Nat × SelectionRecord)) :
    ∀ (l : List SubTreeEntry) (b : HeroBest),
      (l.foldl (heroFoldStep sels) b = b ∧
          ∀ e ∈ l, heroCount sels e ≤ b.taken) ∨
        (∃ (i : Nat) (e : SubTreeEntry), l[i]? = some e ∧
          l.foldl (heroFoldStep sels) b =
            ⟨e.nodes, heroCount sels e, e.traitSubTreeId⟩ ∧
          b.taken < heroCount sels e ∧
          (∀ e2 ∈ l, heroCount sels e2 ≤ heroCount sels e) ∧
          (∀ (j : Nat) (e2 : SubTreeEntry), j < i → l[j]? = some e2 →
            heroCount sels e2 < heroCount sels e)) := by
  intro l
  induction l with
  | nil => intro b; exact Or.inl ⟨rfl, by intro e he; cases he⟩
  | cons a t ih =>
    intro b
    rw [List.foldl_cons]
    by_cases hgt : heroCount sels a > b.taken
    · have hstep : heroFoldStep sels b a =
          ⟨a.nodes, heroCount sels a, a.traitSubTreeId⟩ := by
        unfold heroFoldStep
        rw [if_pos hgt]
      rw [hstep]
      rcases ih ⟨a.nodes, heroCount sels a, a.traitSubTreeId⟩ with
        ⟨heq, hall⟩ | ⟨i, e, hget, heq, hgt2, hmax, hfirst⟩
      · right
        refine ⟨0, a, by simp, heq, hgt, ?_, ?_⟩
        · intro e2 he2
          rcases List.mem_cons.mp he2 with h | h
          · subst h
            exact le_refl _
          · exact hall e2 h
        · intro j e2 hj _
          omega
      · right
        have hae : heroCount sels a < heroCount sels e := hgt2
        refine ⟨i + 1, e, by simpa using hget, heq, by omega, ?_, ?_⟩
        · intro e2 he2
          rcases List.mem_cons.mp he2 with h | h
          · subst h
            omega
          · exact hmax e2 h
        · intro j e2 hj hget2
          cases j with
          | zero =>
            simp only [List.getElem?_cons_zero, Option.some.injEq] at hget2
            subst hget2
            omega
          | succ j =>
            simp only [List.getElem?_cons_succ] at hget2
            exact hfirst j e2 (by omega) hget2
    · have hstep : heroFoldStep sels b a = b := by
        unfold heroFoldStep
        rw [if_neg hgt]
      rw [hstep]
      rcases ih b with ⟨heq, hall⟩ | ⟨i, e, hget, heq, hgt2, hmax, hfirst⟩
      · left
        refine ⟨heq, ?_⟩
        intro e2 he2
        rcases List.mem_cons.mp he2 with h | h
        · subst h
          omega
        · exact hall e2 h
      · right
        refine ⟨i + 1, e, by simpa using hget, heq, hgt2, ?_, ?_⟩
        · intro e2 he2
          rcases List.mem_cons.mp he2 with h | h
          · subst h
            omega
          · exact hmax e2 h
        · intro j e2 hj hget2
          cases j with
          | zero =>
            simp only [List.getElem?_cons_zero, Option.some.injEq] at hget2
            subst hget2
            omega
          | succ j =>
            simp only [List.getElem?_cons_succ] at hget2
            exact hfirst j e2 (by omega) hget2

/-- C8: when the hero assertion is enabled and the designated choice
group exists with a nonempty alternative list, the calibration score is
the sum over the expected-taken set of +2 for a taken record and -2
otherwise, plus 10 when every member node of the alternative with the
highest taken-member count (first on ties) is taken and -10 otherwise. -/
theorem scoreDecode_expected_and_hero (model : Model)
    (sels : List (Nat × SelectionRecord)) (st : SubTree)
    (h1 : model.subTreeNodes.head? = some st) (h2 : st.entries ≠ []) :
    ∃ (i : Nat) (best : SubTreeEntry), st.entries[i]? = some best ∧
      (∀ e ∈ st.entries, heroCount sels e ≤ heroCount sels best) ∧
      (∀ (j : Nat) (e : SubTreeEntry), j < i → st.entries[j]? = some e →
        heroCount sels e < heroCount sels best) ∧
      scoreDecode model sels =
        (calibrationExpectedTaken.map
            (fun id => if selTaken sels id then (2 : Int) else -2)).sum +
          (if best.nodes.all (fun nid => selTaken sels nid) then 10 else -10) := by
  have hbase : ∀ (l : List Nat) (s : Int),
      l.foldl (fun acc id => acc + if selTaken sels id then 2 else -2) s =
        s + (l.map (fun id => if selTaken sels id then (2 : Int) else -2)).sum := by
    intro l
    induction l with
    | nil => intro s; simp
    | cons a t ih =>
      intro s
      rw [List.foldl_cons, List.map_cons, List.sum_cons, ih]
      ring
  have hne : st.entries.isEmpty = false := by
    cases hent : st.entries with
    | nil => exact absurd hent h2
    | cons a t => rfl
  rcases heroFold_firstMax sels st.entries ⟨[], -1, none⟩ with
    ⟨_, hall⟩ | ⟨i, e, hget, heq, _, hmax, hfirst⟩
  · exfalso
    cases hent : st.entries with
    | nil => exact h2 hent
    | cons a t =>
      have ha := hall a (by rw [hent]; exact List.mem_cons_self a t)
      have ha0 : (0 : Int) ≤ heroCount sels a := Int.ofNat_nonneg _
      have ha2 : heroCount sels a ≤ -1 := ha
      omega
  · refine ⟨i, e, hget, hmax, hfirst, ?_⟩
    unfold scoreDecode
    rw [h1]
    have hherobest : heroBestFold sels st.entries =
        ⟨e.nodes, heroCount sels e, e.traitSubTreeId⟩ := heq
    simp only [calibrationExpectedHeroAll, if_true, hne, Bool.false_eq_true,
      if_false, hherobest, hbase, Int.zero_add]

theorem scoreDecode_expected_and_hero_witness :
    ∃ (i : Nat) (best : SubTreeEntry),
      (SubTree.mk [⟨[1], some 57⟩, ⟨[2], some 58⟩]).entries[i]? = some best ∧
      (∀ e ∈ (SubTree.mk [⟨[1], some 57⟩, ⟨[2], some 58⟩]).entries,
        heroCount [] e ≤ heroCount [] best) ∧
      (∀ (j : Nat) (e : SubTreeEntry), j < i →
        (SubTree.mk [⟨[1], some 57⟩, ⟨[2], some 58⟩]).entries[j]? = some e →
        heroCount [] e < heroCount [] best) ∧
      scoreDecode heroOnlyModel [] =
        (calibrationExpectedTaken.map
            (fun id => if selTaken [] id then (2 : Int) else -2)).sum +
          (if best.nodes.all (fun nid => selTaken [] nid) then 10 else -10) :=
  scoreDecode_expected_and_hero heroOnlyModel []
    (SubTree.mk [⟨[1], some 57⟩, ⟨[2], some 58⟩]) rfl (by decide)

/-! ## Helper lemmas and claims C9, C10: calibration search -/

theorem insertDesc_ne_nil (c : Candidate) (l : List Candidate) :
    insertDesc c l ≠ [] := by
  cases l with
  | nil => simp [insertDesc]
  | cons x xs =>
    unfold insertDesc
    split <;> simp

theorem sortByScoreDesc_eq_nil_iff (l : List Candidate) :
    sortByScoreDesc l = [] ↔ l = [] := by
  cases l with
  | nil => simp [sortByScoreDesc]
  | cons x xs =>
    simp only [sortByScoreDesc]
    constructor
    · intro h
      exact absurd h (insertDesc_ne_nil x (sortByScoreDesc xs))
    · intro h
      cases h

theorem insertDesc_head_nil (c : Candidate) :
    (insertDesc c []).head? = some c := rfl

theorem insertDesc_head_cons (c x : Candidate) (xs : List Candidate) :
    (insertDesc c (x :: xs)).head? =
      some (if x.score ≤ c.score then c else x) := by
  unfold insertDesc
  by_cases h : x.score ≤ c.score
  · rw [if_pos h, if_pos h]
    rfl
  · rw [if_neg h, if_neg h]
    rfl

/-- The head of the stable descending sort is an element of the list
whose score is maximal, and every earlier element of the original list
scores strictly less: first-found wins among ties. -/
theorem sortDesc_head_firstMax :
    ∀ (l : List Candidate) (c : Candidate),
      (sortByScoreDesc l).head? = some c →
      ∃ (i : Nat), l[i]? = some c ∧ (∀ x ∈ l, x.score ≤ c.score) ∧
        ∀ (j : Nat) (x : Candidate), j < i → l[j]? = some x →
          x.score < c.score := by
  intro l
  induction l with
  | nil => intro c h; simp [sortByScoreDesc] at h
  | cons a t ih =>
    intro c h
    simp only [sortByScoreDesc] at h
    cases hsort : sortByScoreDesc t with
    | nil =>
      rw [hsort, insertDesc_head_nil] at h
      simp only [Option.some.injEq] at h
      have ht : t = [] := (sortByScoreDesc_eq_nil_iff t).mp hsort
      subst ht
      subst h
      refine ⟨0, by simp, ?_, by intro j y hj _; omega⟩
      intro y hy
      rcases List.mem_cons.mp hy with h1 | h1
      · subst h1
        exact le_refl _
      · cases h1
    | cons s0 srest =>
      rw [hsort, insertDesc_head_cons] at h
      simp only [Option.some.injEq] at h
      have hs : (sortByScoreDesc t).head? = some s0 := by
        rw [hsort]
        rfl
      by_cases hcmp : s0.score ≤ a.score
      · rw [if_pos hcmp] at h
        subst h
        obtain ⟨i, hget, hmax, hfirst⟩ := ih s0 hs
        refine ⟨0, by simp, ?_, by intro j y hj _; omega⟩
        intro y hy
        rcases List.mem_cons.mp hy with h1 | h1
        · subst h1
          exact le_refl _
        · exact le_trans (hmax y h1) hcmp
      · rw [if_neg hcmp] at h
        subst h
        obtain ⟨i, hget, hmax, hfirst⟩ := ih s0 hs
        refine ⟨i + 1, by simpa using hget, ?_, ?_⟩
        · intro y hy
          rcases List.mem_cons.mp hy with h1 | h1
          · subst h1
            omega
          · exact hmax y h1
        · intro j y hj hget2
          cases j with
          | zero =>
            simp only [List.getElem?_cons_zero, Option.some.injEq] at hget2
            subst hget2
            omega
          | succ j =>
            simp only [List.getElem?_cons_succ] at hget2
            exact hfirst j y (by omega) hget2

/-- C9: calibration returns the candidate with the maximal score; among
equal scores the configuration enumerated first wins; every candidate
comes from a configuration whose decode succeeded, with its score; a
configuration whose decode fails contributes no candidate; and an empty
candidate list yields `none` (the no-viable-configuration signal) rather
than a default configuration. -/
theorem calibrate_returns_best (model : Model) :
    (calibrateDecoder model = none ↔ candidatesFor model = []) ∧
      (∀ c : Candidate, calibrateDecoder model = some c →
        ∃ (i : Nat), (candidatesFor model)[i]? = some c ∧
          (∀ x ∈ candidatesFor model, x.score ≤ c.score) ∧
          ∀ (j : Nat) (x : Candidate), j < i →
            (candidatesFor model)[j]? = some x → x.score < c.score) ∧
      (∀ c : Candidate, calibrateDecoder model = some c →
        ∃ sels, decodeSelections calibrationCode model c.opts = some sels ∧
          c.score = scoreDecode model sels) ∧
      (∀ o : Opts, decodeSelections calibrationCode model o = none →
        ∀ c ∈ candidatesFor model, c.opts ≠ o) := by
  have hmemchar : ∀ c ∈ candidatesFor model,
      ∃ sels, decodeSelections calibrationCode model c.opts = some sels ∧
        c.score = scoreDecode model sels := by
    intro c hc
    obtain ⟨o, ho, hfo⟩ := List.mem_filterMap.mp hc
    cases hd : decodeSelections calibrationCode model o with
    | none =>
      rw [hd] at hfo
      simp at hfo
    | some sels =>
      rw [hd] at hfo
      simp only [Option.some.injEq] at hfo
      subst hfo
      exact ⟨sels, hd, rfl⟩
  refine ⟨?_, ?_, ?_, ?_⟩
  · unfold calibrateDecoder
    rw [List.head?_eq_none_iff]
    exact sortByScoreDesc_eq_nil_iff _
  · intro c hc
    exact sortDesc_head_firstMax _ c hc
  · intro c hc
    obtain ⟨i, hget, _, _⟩ := sortDesc_head_firstMax _ c hc
    exact hmemchar c (List.getElem?_mem hget)
  · intro o hdec c hc heq
    obtain ⟨sels, hsome, _⟩ := hmemchar c hc
    rw [heq, hdec] at hsome
    cases hsome

/-- Every block of the header-outermost enumeration has length 18. -/
theorem flatMap_blocks_get {α β : Type} (f : α → List β) (k : Nat)
    (hk : ∀ a, (f a).length = k) :
    ∀ (l : List α) (i j : Nat), j < k →
      (l.flatMap f)[i * k + j]? = l[i]?.bind fun a => (f a)[j]? := by
  intro l
  induction l with
  | nil => intro i j hj; simp
  | cons a t ih =>
    intro i j hj
    rw [List.flatMap_cons]
    cases i with
    | zero =>
      rw [Nat.zero_mul, Nat.zero_add,
        List.getElem?_append_left (by rw [hk a]; exact hj)]
      simp
    | succ i =>
      have hge : (f a).length ≤ (i + 1) * k + j := by
        rw [hk a, Nat.succ_mul]
        omega
      rw [List.getElem?_append_right hge]
      have hidx : (i + 1) * k + j - (f a).length = i * k + j := by
        rw [hk a, Nat.succ_mul]
        omega
      rw [hidx, ih i j hj]
      simp

set_option maxRecDepth 20000 in
/-- Calibration on a concrete model returns a candidate: with the empty
schema every configuration decodes and scores -36 (all 18 expected nodes
missing, no hero group), and the first-enumerated configuration wins the
18-way tie, exhibiting the tie-breaking order concretely. -/
theorem calibrate_emptyModel_first :
    calibrateDecoder emptyModel =
      some ⟨⟨0, ChoiceMode.byEntryCount, false, RankMode.plus1⟩, -36⟩ := by
  decide

set_option maxRecDepth 8000 in
/-- C10: the enumeration is exactly the Cartesian product of the header
count 0..40, the 3 choice modes, the 2 extra-bit flags and the 3 rank
modes — 738 configurations — in lexicographic nesting order with the
header count slowest and the rank mode fastest: the configuration with
indices `(h, cm, eb, rm)` sits at position `h*18 + cm*6 + eb*3 + rm`. -/
theorem enumConfigs_cartesian :
    enumConfigs.length = 738 ∧
      ∀ (h : Nat) (cm : ChoiceMode) (eb : Bool) (rm : RankMode), h < 41 →
        enumConfigs[h * 18 + (cmIdx cm * 6 + ebIdx eb * 3 + rmIdx rm)]? =
          some ⟨h, cm, eb, rm⟩ := by
  constructor
  · rfl
  · intro h cm eb rm hh
    unfold enumConfigs
    rw [flatMap_blocks_get enumInner 18 (fun a => rfl) (List.range 41) h
      (cmIdx cm * 6 + ebIdx eb * 3 + rmIdx rm)
      (by cases cm <;> cases eb <;> cases rm <;> decide)]
    rw [List.getElem?_range hh]
    cases cm <;> cases eb <;> cases rm <;> rfl

set_option maxRecDepth 8000 in
theorem enumConfigs_cartesian_witness :
    enumConfigs.length = 738 ∧
      enumConfigs[737]? =
        some ⟨40, ChoiceMode.fixed2, true, RankMode.tiered3⟩ := by
  refine ⟨enumConfigs_cartesian.1, ?_⟩
  have h2 := enumConfigs_cartesian.2 40 ChoiceMode.fixed2 true
    RankMode.tiered3 (by omega)
  simpa [cmIdx, ebIdx, rmIdx] using h2

end Talentstree
